import Mathlib

/-!
Shallow embedding of the section-management core of the routing repository:
the `Section` state machine (src/section/section.rs), the bootstrapping stage
(src/node/stage/bootstrapping.rs) and the `MemberKnowledge` variant
(src/messages/variant.rs), together with the supporting types
(`Prefix`/`XorName` algebra, `SectionProofChain`, `EldersInfo`,
`SectionPeers`, `Proven`) whose sources are not part of the provided tree and
are therefore modelled from the specification.

Cryptography is symbolic: a signature records the signing key and the signed
payload, and verification is equality of both.  Machine integers (`u8`,
`u64`, `usize`) are embedded as `Nat`; none of the verified operations can
overflow them on the inputs the theorems quantify over.
-/

/-- Number of bits of a name (`XOR_NAME_BITS` of the xor_name crate; spec §4.1). -/
def NAME_BITS : Nat := 256

/-- Modelled from the spec: `MIN_AGE = 4` (§4.1), the minimum age of a peer. -/
def MIN_AGE : Nat := 4

/-- Modelled from the spec: `XorName`, a fixed-width 256-bit opaque identifier,
embedded as a natural number below `2 ^ NAME_BITS`, bits read MSB-first. -/
abbrev XorName := Nat

/-- Bit `i` of a name, MSB first (`XorName::bit`).  The source indexes bits by a
`u8`, so only indices below `NAME_BITS` denote a bit. -/
def nameBit (name : XorName) (i : Nat) : Bool :=
  if i < NAME_BITS then name.testBit (NAME_BITS - 1 - i) else false

/-- The name with everything below its top `k` bits cleared: the canonical
representative of the prefix of length `k` that `name` matches. -/
def truncTop (name : XorName) (k : Nat) : XorName :=
  name / 2 ^ (NAME_BITS - k) * 2 ^ (NAME_BITS - k)

/-- Flip bit `i` (MSB-first) of a name; identity for out-of-range indices. -/
def flipBit (name : XorName) (i : Nat) : XorName :=
  if i < NAME_BITS then
    if name.testBit (NAME_BITS - 1 - i) then name - 2 ^ (NAME_BITS - 1 - i)
    else name + 2 ^ (NAME_BITS - 1 - i)
  else name

/-- Modelled from the spec: `Prefix` — a pair of a bit count and a representative
name (§3).  All constructors below store the representative canonically (bits
beyond `bit_count` cleared), matching the xor_name crate. -/
structure Prefix where
  bit_count : Nat
  name : XorName
deriving DecidableEq

/-- `Prefix::new(bit_count, name)`: keep the top `bit_count` bits of `name`
(clamped to `NAME_BITS`).  Modelled from the spec. -/
def Prefix.new (bit_count : Nat) (name : XorName) : Prefix :=
  ⟨min bit_count NAME_BITS, truncTop name (min bit_count NAME_BITS)⟩

/-- `Prefix::matches`: the top `bit_count` bits of `n` equal the
representative's.  Modelled from the spec. -/
def Prefix.matches (p : Prefix) (n : XorName) : Bool :=
  truncTop n (min p.bit_count NAME_BITS) == truncTop p.name (min p.bit_count NAME_BITS)

/-- `Prefix::pushed(bit)`: extend the prefix by one bit (saturating at
`NAME_BITS`).  Modelled from the spec. -/
def Prefix.pushed (p : Prefix) (b : Bool) : Prefix :=
  if p.bit_count < NAME_BITS then
    ⟨p.bit_count + 1,
      truncTop p.name p.bit_count + (if b then 2 ^ (NAME_BITS - 1 - p.bit_count) else 0)⟩
  else p

/-- `Prefix::sibling`: flip the last bit.  Modelled from the spec. -/
def Prefix.sibling (p : Prefix) : Prefix :=
  if p.bit_count = 0 then p else ⟨p.bit_count, flipBit p.name (p.bit_count - 1)⟩

/-- `Prefix::popped`: drop the last bit (the parent prefix).  Modelled from the
spec. -/
def Prefix.popped (p : Prefix) : Prefix :=
  if p.bit_count = 0 then p
  else ⟨p.bit_count - 1, truncTop p.name (min (p.bit_count - 1) NAME_BITS)⟩

/-- Rust `==` on `Prefix` (xor_name's `PartialEq`): equal bit counts and equal
significant bits; insignificant bits are ignored.  Modelled from the spec. -/
def Prefix.eqv (p q : Prefix) : Bool :=
  p.bit_count == q.bit_count &&
    truncTop p.name (min p.bit_count NAME_BITS) == truncTop q.name (min q.bit_count NAME_BITS)

/-- `Prefix::is_extension_of` in its inclusive reading: `p` equals `q` or
extends it — `q` is no longer than `p` and `p`'s representative matches `q`.
Modelled from the spec ("equal to or an extension of"). -/
def Prefix.is_extension_of (p q : Prefix) : Bool :=
  decide (q.bit_count ≤ p.bit_count) && q.matches p.name

/-- `Prefix::range_inclusive`: the closed interval of names matching the
prefix.  Modelled from the spec (§4.1). -/
def Prefix.range_inclusive (p : Prefix) : XorName × XorName :=
  let k := min p.bit_count NAME_BITS
  (truncTop p.name k, truncTop p.name k + (2 ^ (NAME_BITS - k) - 1))

/-- Modelled from the spec: `Peer` — name, transport address (opaque, embedded
as `Nat`) and age (§3).  Immutable. -/
structure Peer where
  name : XorName
  addr : Nat
  age : Nat
deriving DecidableEq

/-- Modelled from the spec: the state of a member (§3, `MemberInfo.state`). -/
inductive PeerState where
  | joined
  | left
  | relocated
deriving DecidableEq

/-- Modelled from the spec: `MemberInfo` — a peer together with its state (§3).
The `signed_at_key_index` of the spec is recovered from the proof's key, as the
`SectionPeers::update` policy (§4.4) reads it from the chain. -/
structure MemberInfo where
  peer : Peer
  state : PeerState
deriving DecidableEq

/-- `MemberInfo::joined(peer)`: a member starting in state `Joined`.
Modelled from the spec. -/
def MemberInfo.joined (p : Peer) : MemberInfo := ⟨p, PeerState.joined⟩

/-- Modelled from the spec: `EldersInfo` — the elder map (kept in name order,
as a `BTreeMap` iterates) and the section's prefix (§3).  The field `prefix`
is called `pref` here.  The spec's `version` field is omitted: `EldersInfo::new`
in section.rs takes only the elder map and the prefix, and no verified
operation reads a version. -/
structure EldersInfo where
  elders : List (XorName × Peer)
  pref : Prefix
deriving DecidableEq

/-- `EldersInfo::new(elders, prefix)`: the constructor filters out entries not
matching the prefix (§4.3).  Modelled from the spec. -/
def EldersInfo.new (elders : List (XorName × Peer)) (pref : Prefix) : EldersInfo :=
  ⟨elders.filter (fun e => pref.matches e.1), pref⟩

/-- BLS public keys, opaque symbols. -/
abbrev PublicKey := Nat

/-- The payloads that are ever signed: a successor key (chain links), a
serialised `EldersInfo`, or a serialised `MemberInfo`.  Constructor injectivity
models the spec's canonical (hence injective) serialisation (§6). -/
inductive Payload where
  | key : PublicKey → Payload
  | elders : EldersInfo → Payload
  | member : MemberInfo → Payload
deriving DecidableEq

/-- A symbolic BLS signature: the signing key and the signed payload. -/
structure Signature where
  signer : PublicKey
  signed : Payload
deriving DecidableEq

/-- Producing a signature with key `k` over payload `p`. -/
def signPayload (k : PublicKey) (p : Payload) : Signature := ⟨k, p⟩

/-- `PublicKey::verify(signature, payload)`: in the symbolic model, the
signature was produced by this key over this payload. -/
def verifySig (k : PublicKey) (s : Signature) (p : Payload) : Bool :=
  s.signer == k && s.signed == p

/-- Modelled from the spec: `Proof` — a public key and a threshold signature
over a serialised payload (§3). -/
structure Proof where
  public_key : PublicKey
  signature : Signature
deriving DecidableEq

/-- How a value is serialised into a signable payload. -/
class HasPayload (α : Type) where
  payload : α → Payload

instance : HasPayload EldersInfo := ⟨Payload.elders⟩

instance : HasPayload MemberInfo := ⟨Payload.member⟩

/-- Modelled from the spec: `Proven<T>` — a value with a proof (§3). -/
structure Proven (α : Type) where
  value : α
  proof : Proof
deriving DecidableEq

/-- `Proven::self_verify`: the proof's key verifies the signature over the
value's serialisation.  Modelled from the spec. -/
def Proven.self_verify {α : Type} [HasPayload α] (p : Proven α) : Bool :=
  verifySig p.proof.public_key p.proof.signature (HasPayload.payload p.value)

/-- A link of a `SectionProofChain`: a signature by the previous key over the
new key, and the new key. -/
structure Link where
  signature : Signature
  key : PublicKey
deriving DecidableEq

/-- Modelled from the spec: `SectionProofChain` — a first bare key plus a list
of signed links (§4.2). -/
structure SectionProofChain where
  first_key : PublicKey
  tail : List Link
deriving DecidableEq

/-- `SectionProofChain::new(first_key)`. -/
def SectionProofChain.new (k : PublicKey) : SectionProofChain := ⟨k, []⟩

/-- All keys of the chain, oldest first. -/
def SectionProofChain.keys (c : SectionProofChain) : List PublicKey :=
  c.first_key :: c.tail.map Link.key

/-- Index of the first occurrence of a key in a list of keys. -/
def idxOf? (k : PublicKey) : List PublicKey → Option Nat
  | [] => none
  | a :: as => if a == k then some 0 else (idxOf? k as).map (· + 1)

/-- `SectionProofChain::has_key` — O(n) membership.  Modelled from the spec. -/
def SectionProofChain.has_key (c : SectionProofChain) (k : PublicKey) : Bool :=
  decide (k ∈ c.keys)

/-- `SectionProofChain::index_of`.  Modelled from the spec. -/
def SectionProofChain.index_of (c : SectionProofChain) (k : PublicKey) : Option Nat :=
  idxOf? k c.keys

/-- The key reached after following `ls` from `k` (`foldl`, so the last link's
key, or `k` when there is none). -/
def lastKeyFrom (k : PublicKey) (ls : List Link) : PublicKey :=
  ls.foldl (fun _ l => l.key) k

/-- `SectionProofChain::last_key`. -/
def SectionProofChain.last_key (c : SectionProofChain) : PublicKey :=
  lastKeyFrom c.first_key c.tail

/-- Each link verifies under the key before it, starting from `k`. -/
def verifyFrom (k : PublicKey) : List Link → Bool
  | [] => true
  | l :: rest => verifySig k l.signature (Payload.key l.key) && verifyFrom l.key rest

/-- `SectionProofChain::self_verify` — all links valid.  Modelled from the
spec. -/
def SectionProofChain.self_verify (c : SectionProofChain) : Bool :=
  verifyFrom c.first_key c.tail

/-- `SectionProofChain::push(key, sig)` — append iff `sig` verifies under the
last key; returns the updated chain and whether it changed.  Modelled from the
spec. -/
def SectionProofChain.push (c : SectionProofChain) (k : PublicKey) (sig : Signature) :
    SectionProofChain × Bool :=
  if verifySig c.last_key sig (Payload.key k) then
    (⟨c.first_key, c.tail ++ [⟨sig, k⟩]⟩, true)
  else (c, false)

/-- Boolean list-prefix test on links (Rust `starts_with`). -/
def linksIsPre : List Link → List Link → Bool
  | [], _ => true
  | _ :: _, [] => false
  | a :: as, b :: bs => a == b && linksIsPre as bs

/-- Modelled from the spec: the error kinds of `SectionProofChain::merge`
(§4.2). -/
inductive ChainError where
  | InvalidChainExtension
  | UntrustedChain
deriving DecidableEq

/-- Splice `ext` onto `base` given that `base.keys` holds `ext.first_key` at
position `i`: the overlapping links must agree, and `ext`'s surplus links are
appended.  `none` on a fork. -/
def spliceAux (base ext : SectionProofChain) (i : Nat) : Option SectionProofChain :=
  let suffix := base.tail.drop i
  if linksIsPre suffix ext.tail then
    some ⟨base.first_key, base.tail ++ ext.tail.drop suffix.length⟩
  else if linksIsPre ext.tail suffix then some base
  else none

/-- Modelled from the spec: `SectionProofChain::merge(other)` — splice the two
chains when one starts at a key of the other; `InvalidChainExtension` when no
common key exists, `UntrustedChain` on a fork (§4.2, §3). -/
def SectionProofChain.merge (c other : SectionProofChain) :
    Except ChainError SectionProofChain :=
  match c.index_of other.first_key with
  | some i =>
    match spliceAux c other i with
    | some m => Except.ok m
    | none => Except.error ChainError.UntrustedChain
  | none =>
    match other.index_of c.first_key with
    | some j =>
      match spliceAux other c j with
      | some m => Except.ok m
      | none => Except.error ChainError.UntrustedChain
    | none => Except.error ChainError.InvalidChainExtension

/-- Modelled from the spec: `SectionPeers` — a map from names to proven member
infos (§3), embedded as an association list keyed by name. -/
structure SectionPeers where
  entries : List (XorName × Proven MemberInfo)
deriving DecidableEq

/-- `SectionPeers::default()` — the empty map. -/
def SectionPeers.default : SectionPeers := ⟨[]⟩

/-- `SectionPeers::get(name)` — the member info stored under `name`. -/
def SectionPeers.get (m : SectionPeers) (name : XorName) : Option MemberInfo :=
  (m.entries.find? (fun e => e.1 == name)).map (fun e => e.2.value)

/-- State precedence of §4.4: `Joined < Left < Relocated`. -/
def stateRank : PeerState → Nat
  | PeerState.joined => 0
  | PeerState.left => 1
  | PeerState.relocated => 2

/-- Modelled from the spec: `SectionPeers::update(member_info, proof, chain)`
(§4.4) — reject unless the proof's key is in the chain and verifies the info;
reject when an existing entry for the name has a strictly later signing-key
index, or the same index and at least the new state's precedence; otherwise
replace and return true. -/
def SectionPeers.update (m : SectionPeers) (info : MemberInfo) (proof : Proof)
    (chain : SectionProofChain) : SectionPeers × Bool :=
  if chain.has_key proof.public_key &&
      verifySig proof.public_key proof.signature (Payload.member info) then
    let name := info.peer.name
    match m.entries.find? (fun e => e.1 == name) with
    | some old =>
      let oldIdx := (chain.index_of old.2.proof.public_key).getD 0
      let newIdx := (chain.index_of proof.public_key).getD 0
      if newIdx < oldIdx ∨ (newIdx = oldIdx ∧ stateRank info.state ≤ stateRank old.2.value.state)
      then (m, false)
      else (⟨m.entries.filter (fun e => e.1 != name) ++ [(name, ⟨info, proof⟩)]⟩, true)
    | none => (⟨m.entries ++ [(name, ⟨info, proof⟩)]⟩, true)
  else (m, false)

/-- Modelled from the spec: `SectionPeers::merge(other, chain)` — apply
`update` for each entry of `other` (§4.4). -/
def SectionPeers.merge (m other : SectionPeers) (chain : SectionProofChain) : SectionPeers :=
  other.entries.foldl (fun acc e => (acc.update e.2.value e.2.proof chain).1) m

/-- `SectionPeers::remove_not_matching_our_prefix` — drop entries whose names
fall outside the prefix (§3).  Modelled from the spec. -/
def SectionPeers.remove_not_matching_our_pref (m : SectionPeers) (p : Prefix) : SectionPeers :=
  ⟨m.entries.filter (fun e => p.matches e.1)⟩

/-- Modelled from the spec: `SectionPeers::adults()` — the peers of members in
state `Joined` with age at least the adult threshold (§4.4; the glossary sets
the threshold at `MIN_AGE`). -/
def SectionPeers.adults (m : SectionPeers) : List Peer :=
  m.entries.filterMap (fun e =>
    if e.2.value.state = PeerState.joined ∧ MIN_AGE ≤ e.2.value.peer.age
    then some e.2.value.peer else none)

/-- Insert into a list sorted by the Boolean order `le`. -/
def insertBy {α : Type} (le : α → α → Bool) (x : α) : List α → List α
  | [] => [x]
  | y :: ys => if le x y then x :: y :: ys else y :: insertBy le x ys

/-- Insertion sort by the Boolean order `le`. -/
def sortBy {α : Type} (le : α → α → Bool) (l : List α) : List α :=
  l.foldr (insertBy le) []

/-- The elder-candidate order of §4.4: highest age first, ties by XOR distance
to the current prefix representative, then by name.  Modelled from the spec. -/
def elderOrder (current : EldersInfo) (a b : Peer) : Bool :=
  if a.age ≠ b.age then decide (b.age < a.age)
  else if Nat.xor a.name current.pref.name ≠ Nat.xor b.name current.pref.name then
    decide (Nat.xor a.name current.pref.name < Nat.xor b.name current.pref.name)
  else decide (a.name ≤ b.name)

/-- Modelled from the spec: `SectionPeers::elder_candidates(size, current)` —
the `size` first joined adults in the elder-candidate order, keyed by name in
name order as a `BTreeMap` holds them (§4.4). -/
def SectionPeers.elder_candidates (m : SectionPeers) (size : Nat) (current : EldersInfo) :
    List (XorName × Peer) :=
  sortBy (fun a b => decide (a.1 ≤ b.1))
    (((sortBy (elderOrder current) m.adults).take size).map (fun p => (p.name, p)))

/-- Modelled from the spec: `elder_candidates_matching_prefix(prefix, size,
current)` — as `elder_candidates` but restricted to names matching the given
prefix (§4.5). -/
def SectionPeers.elder_candidates_matching_pref (m : SectionPeers) (p : Prefix) (size : Nat)
    (current : EldersInfo) : List (XorName × Peer) :=
  sortBy (fun a b => decide (a.1 ≤ b.1))
    (((sortBy (elderOrder current) (m.adults.filter (fun q => p.matches q.name))).take
        size).map (fun q => (q.name, q)))

/-- The error kinds `Section::merge` surfaces (src/error.rs is not in the
tree; the two constructors used by section.rs are modelled from the spec §7). -/
inductive Error where
  | InvalidMessage
  | UntrustedMessage
deriving DecidableEq

/-- `NetworkParams` (§6). -/
structure NetworkParams where
  elder_size : Nat
  recommended_section_size : Nat
deriving DecidableEq

/-- Modelled from the spec: `majority_count(n) = n/2 + 1` (§4.5). -/
def majority_count (n : Nat) : Nat := n / 2 + 1

/-- `Proven::verify(chain)`: the proof's key is in the chain and the signature
verifies (spec §4.5, contract of `new_proven.verify(chain)`).  Modelled from
the spec. -/
def Proven.verify {α : Type} [HasPayload α] (p : Proven α) (chain : SectionProofChain) : Bool :=
  chain.has_key p.proof.public_key && p.self_verify

/-- Rust `==` on `EldersInfo` (derived `PartialEq`, with xor_name's prefix
equality ignoring insignificant bits). -/
def eldersInfoEqv (a b : EldersInfo) : Bool :=
  a.elders == b.elders && a.pref.eqv b.pref

/-- Rust `==` on `Proven<EldersInfo>` (derived `PartialEq`). -/
def provenEldersEqv (a b : Proven EldersInfo) : Bool :=
  eldersInfoEqv a.value b.value && a.proof == b.proof

/-- `cmp_section_chain_position` (section.rs:353-374): order two proven values
by the position of their signing keys in `section_chain`; a value that fails
`self_verify` loses, a key absent from the chain loses. -/
def cmp_section_chain_position {α : Type} [HasPayload α] (lhs rhs : Proven α)
    (section_chain : SectionProofChain) : Option Ordering :=
  match lhs.self_verify, rhs.self_verify with
  | true, false => some Ordering.gt
  | false, true => some Ordering.lt
  | false, false => none
  | true, true =>
    match section_chain.index_of lhs.proof.public_key,
        section_chain.index_of rhs.proof.public_key with
    | some i, some j => some (compare i j)
    | some _, none => some Ordering.gt
    | none, some _ => some Ordering.lt
    | none, none => none

/-- `Section` (section.rs:30-35): members, proven elders info, proof chain.
The source's `prefix()` accessor is `pref` below. -/
structure Section where
  members : SectionPeers
  elders_info : Proven EldersInfo
  chain : SectionProofChain
deriving DecidableEq

/-- `Section::new(chain, elders_info)` (section.rs:38-46).  The source asserts
`chain.has_key(elders_info.proof.public_key)`; the assertion is a hypothesis of
the reachability relation below. -/
def Section.new (chain : SectionProofChain) (elders_info : Proven EldersInfo) : Section :=
  ⟨SectionPeers.default, elders_info, chain⟩

/-- `Section::prefix()` (section.rs:208-210). -/
def Section.pref (s : Section) : Prefix := s.elders_info.value.pref

/-- `Section::update_elders(new_elders_info)` (section.rs:114-128): accept iff
the proof verifies against the chain and the value differs from the current
one; on acceptance replace `elders_info` and prune members by the new prefix.
Returns the Rust `bool` and the resulting state. -/
def Section.update_elders (s : Section) (n : Proven EldersInfo) : Bool × Section :=
  if ! n.verify s.chain then (false, s)
  else if provenEldersEqv n s.elders_info then (false, s)
  else
    (true,
      { s with
        elders_info := n,
        members := s.members.remove_not_matching_our_pref n.value.pref })

/-- `Section::update_chain(key, signature)` (section.rs:130-132). -/
def Section.update_chain (s : Section) (k : PublicKey) (sig : Signature) : Bool × Section :=
  let r := s.chain.push k sig
  (r.2, { s with chain := r.1 })

/-- `Section::update_member(member_info, proof)` (section.rs:135-137). -/
def Section.update_member (s : Section) (info : MemberInfo) (proof : Proof) : Bool × Section :=
  let r := s.members.update info proof s.chain
  (r.2, { s with members := r.1 })

/-- `Section::merge(other)` (section.rs:79-111): validate the other chain,
merge the chains, pick the newer `elders_info` by chain position (ties broken
by elder count), merge members and prune.  Returns the Rust `Result` and the
resulting state; on the error paths nothing has been mutated. -/
def Section.merge (s other : Section) : Except Error Unit × Section :=
  if ! other.chain.self_verify then (Except.error Error.InvalidMessage, s)
  else
    match s.chain.merge other.chain with
    | Except.error _ => (Except.error Error.UntrustedMessage, s)
    | Except.ok newChain =>
      let ei :=
        match cmp_section_chain_position s.elders_info other.elders_info newChain with
        | some Ordering.lt => other.elders_info
        | some Ordering.eq =>
          if s.elders_info.value.elders.length < other.elders_info.value.elders.length
          then other.elders_info else s.elders_info
        | _ => s.elders_info
      let ms := (s.members.merge other.members newChain).remove_not_matching_our_pref
        ei.value.pref
      (Except.ok (), ⟨ms, ei, newChain⟩)

/-- `Section::member_age(name)` (section.rs:241-246): the stored peer's age,
or `MIN_AGE` when absent. -/
def Section.member_age (s : Section) (name : XorName) : Nat :=
  match s.members.get name with
  | some info => info.peer.age
  | none => MIN_AGE

/-- `Section::first_node(peer)` (section.rs:49-77): genesis section — a
one-key chain, a single-elder `EldersInfo` under the empty prefix signed with
the (freshly generated) current key, and that elder as a joined member.  The
BLS key generation is symbolic: `pk` stands for the generated public key. -/
def Section.first_node (pk : PublicKey) (peer : Peer) : Section :=
  let ei : EldersInfo := EldersInfo.new [(peer.name, peer)] ⟨0, 0⟩
  let proven : Proven EldersInfo := ⟨ei, ⟨pk, signPayload pk (Payload.elders ei)⟩⟩
  let s := Section.new (SectionProofChain.new pk) proven
  let minfo := MemberInfo.joined peer
  (s.update_member minfo ⟨pk, signPayload pk (Payload.member minfo)⟩).2

/-- `Section::elder_candidates(elder_size)` (section.rs:316-319). -/
def Section.elder_candidates (s : Section) (elder_size : Nat) : List (XorName × Peer) :=
  s.members.elder_candidates elder_size s.elders_info.value

/-- The sorted set of names of an elder map, as the `BTreeSet` of its keys. -/
def nameSet (l : List (XorName × Peer)) : List XorName :=
  (sortBy (fun a b => decide (a ≤ b)) (l.map Prod.fst)).dedup

/-- `Section::try_split(network_params, our_name)` (section.rs:261-312): when
the prefix is below the maximal length (the source's `usize → u8` conversion
of `bit_count` fails at 256), partition the adults by their bit at depth
`bit_count`; if both sides reach `recommended_section_size`, produce the two
sibling `EldersInfo`, ours first. -/
def Section.try_split (s : Section) (params : NetworkParams) (our_name : XorName) :
    Option (EldersInfo × EldersInfo) :=
  if NAME_BITS ≤ s.pref.bit_count then none
  else
    let next_bit_index := s.pref.bit_count
    let next_bit := nameBit our_name next_bit_index
    let counts :=
      ((s.members.adults.map (fun p => nameBit p.name next_bit_index == next_bit)).foldl
        (fun acc b => if b then (acc.1 + 1, acc.2) else (acc.1, acc.2 + 1)) (0, 0))
    if counts.1 < params.recommended_section_size ∨
        counts.2 < params.recommended_section_size then none
    else
      let our_pref := s.pref.pushed next_bit
      let other_pref := s.pref.pushed (! next_bit)
      let our_elders :=
        s.members.elder_candidates_matching_pref our_pref params.elder_size s.elders_info.value
      let other_elders :=
        s.members.elder_candidates_matching_pref other_pref params.elder_size
          s.elders_info.value
      some (EldersInfo.new our_elders our_pref, EldersInfo.new other_elders other_pref)

/-- `Section::promote_and_demote_elders(network_params, our_name)`
(section.rs:178-200): on a split return both infos; else compare the expected
elder set with the current one; refuse a shrink below
`majority_count(current)`; else propose one new info under the current
prefix. -/
def Section.promote_and_demote_elders (s : Section) (params : NetworkParams)
    (our_name : XorName) : List EldersInfo :=
  match s.try_split params our_name with
  | some (our_info, other_info) => [our_info, other_info]
  | none =>
    let expected_elders_map := s.elder_candidates params.elder_size
    let expected := nameSet expected_elders_map
    let current := nameSet s.elders_info.value.elders
    if expected = current then []
    else if expected.length < majority_count current.length then []
    else [EldersInfo.new expected_elders_map s.pref]

/-- `MemberKnowledge` (variant.rs:103-107). -/
structure MemberKnowledge where
  elders_version : Nat
  parsec_version : Nat
deriving DecidableEq

/-- `MemberKnowledge::update(other)` (variant.rs:110-113): element-wise max. -/
def MemberKnowledge.update (a b : MemberKnowledge) : MemberKnowledge :=
  ⟨max a.elders_version b.elders_version, max a.parsec_version b.parsec_version⟩

/-- `EXTRA_SPLIT_COUNT` (bootstrapping.rs:198, local `extra_split_count`). -/
def EXTRA_SPLIT_COUNT : Nat := 3

/-- Modelled from the spec: `SignedRelocateDetails` — only the destination is
read by the verified operations (§4.8). -/
structure SignedRelocateDetails where
  destination : XorName
deriving DecidableEq

/-- The `Bootstrapping` stage (bootstrapping.rs:28-36), restricted to the
fields the verified operations read: the optional relocate details and the
node's current name.  The source holds no set of pending requests — that field
is commented out. -/
structure Bootstrapping where
  relocate_details : Option SignedRelocateDetails
  name : XorName
deriving DecidableEq

/-- Modelled from the spec: `FullId::within_range(rng, range)` — a name inside
the closed range; the RNG outcome is the parameter `r`, and every outcome maps
into the range (§4.7). -/
def withinRange (r : Nat) (range : XorName × XorName) : XorName :=
  range.1 + r % (range.2 + 1 - range.1)

/-- `Bootstrapping::join_section(elders_info)` (bootstrapping.rs:189-212): when
relocating, pick a new name within
`Prefix::new(elders_info.prefix.bit_count + EXTRA_SPLIT_COUNT,
destination).range_inclusive()` and adopt it; otherwise no name change.
Returns the new name (the payload binding it is out of scope) and the updated
stage. -/
def Bootstrapping.join_section (st : Bootstrapping) (elders_info : EldersInfo) (r : Nat) :
    Option XorName × Bootstrapping :=
  match st.relocate_details with
  | none => (none, st)
  | some details =>
    let name_pref :=
      Prefix.new (elders_info.pref.bit_count + EXTRA_SPLIT_COUNT) details.destination
    let new_name := withinRange r name_pref.range_inclusive
    (some new_name, { st with relocate_details := none, name := new_name })

/-- `BootstrapResponse` (bootstrapping.rs:136-161; the `Join` arm carries the
elders info and the section key). -/
inductive BootstrapResponseM where
  | join : EldersInfo → PublicKey → BootstrapResponseM
  | rebootstrap : List Nat → BootstrapResponseM
deriving DecidableEq

/-- `JoinParams` (bootstrapping.rs:215-219); the relocate payload is
represented by the new name it binds. -/
structure JoinParams where
  elders_info : EldersInfo
  section_key : PublicKey
  relocate_name : Option XorName
deriving DecidableEq

/-- `Bootstrapping::handle_bootstrap_response(sender, response)`
(bootstrapping.rs:120-162): the pending-requests filter is commented out in
the source, so the sender is never consulted; a `Join` response always
produces `JoinParams` (the transition to `Joining`). -/
def Bootstrapping.handle_bootstrap_response (st : Bootstrapping) (sender : Nat)
    (resp : BootstrapResponseM) (r : Nat) : Option JoinParams × Bootstrapping :=
  match resp with
  | BootstrapResponseM.join ei key =>
    let res := st.join_section ei r
    (some ⟨ei, key, res.1⟩, res.2)
  | BootstrapResponseM.rebootstrap _ => (none, st)

/-- The states of claim C1, original reading: built by `Section::new` (under
its assert) or `Section::first_node`, closed under the four mutators; the view
merged in is itself such a state. -/
inductive Reachable : Section → Prop
  | new (chain : SectionProofChain) (ei : Proven EldersInfo) :
      chain.has_key ei.proof.public_key = true → Reachable (Section.new chain ei)
  | first_node (pk : PublicKey) (peer : Peer) : Reachable (Section.first_node pk peer)
  | update_elders {s : Section} (n : Proven EldersInfo) :
      Reachable s → Reachable (s.update_elders n).2
  | update_chain {s : Section} (k : PublicKey) (sig : Signature) :
      Reachable s → Reachable (s.update_chain k sig).2
  | update_member {s : Section} (info : MemberInfo) (proof : Proof) :
      Reachable s → Reachable (s.update_member info proof).2
  | merge {s other s' : Section} :
      Reachable s → Reachable other → s.merge other = (Except.ok (), s') → Reachable s'

/-- As `Reachable`, but `Section::new` is only applied to self-verifying
chains (claim C1 as amended; `first_node` always yields one). -/
inductive ReachableV : Section → Prop
  | new (chain : SectionProofChain) (ei : Proven EldersInfo) :
      chain.self_verify = true → chain.has_key ei.proof.public_key = true →
      ReachableV (Section.new chain ei)
  | first_node (pk : PublicKey) (peer : Peer) : ReachableV (Section.first_node pk peer)
  | update_elders {s : Section} (n : Proven EldersInfo) :
      ReachableV s → ReachableV (s.update_elders n).2
  | update_chain {s : Section} (k : PublicKey) (sig : Signature) :
      ReachableV s → ReachableV (s.update_chain k sig).2
  | update_member {s : Section} (info : MemberInfo) (proof : Proof) :
      ReachableV s → ReachableV (s.update_member info proof).2
  | merge {s other s' : Section} :
      ReachableV s → ReachableV other → s.merge other = (Except.ok (), s') → ReachableV s'

/-- The invariant of claim C1 / property P1: the chain self-verifies and holds
the key of the current elders info's proof. -/
def SectionInv (s : Section) : Prop :=
  s.chain.self_verify = true ∧ s.chain.has_key s.elders_info.proof.public_key = true

instance (s : Section) : Decidable (SectionInv s) := by
  unfold SectionInv; infer_instance

theorem idxOf?_mem {k : PublicKey} {l : List PublicKey} {i : Nat}
    (h : idxOf? k l = some i) : k ∈ l := by
  induction l generalizing i with
  | nil => simp [idxOf?] at h
  | cons a as ih =>
    by_cases hak : a = k
    · simp [hak]
    · simp only [idxOf?, beq_iff_eq, if_neg hak, Option.map_eq_some'] at h
      obtain ⟨j, hj, -⟩ := h
      exact List.mem_cons_of_mem a (ih hj)

theorem idxOf?_eq_none {k : PublicKey} {l : List PublicKey}
    (h : k ∉ l) : idxOf? k l = none := by
  induction l with
  | nil => rfl
  | cons a as ih =>
    simp only [List.mem_cons, not_or] at h
    have hne : ¬ a = k := fun hh => h.1 hh.symm
    simp only [idxOf?, beq_iff_eq, if_neg hne, ih h.2, Option.map_none']

theorem lastKeyFrom_append (f : PublicKey) (xs ys : List Link) :
    lastKeyFrom f (xs ++ ys) = lastKeyFrom (lastKeyFrom f xs) ys := by
  simp [lastKeyFrom, List.foldl_append]

theorem verifyFrom_append (f : PublicKey) (xs ys : List Link) :
    verifyFrom f (xs ++ ys) = (verifyFrom f xs && verifyFrom (lastKeyFrom f xs) ys) := by
  induction xs generalizing f with
  | nil => simp [verifyFrom, lastKeyFrom]
  | cons a as ih =>
    show (verifySig f a.signature (Payload.key a.key) && verifyFrom a.key (as ++ ys)) = _
    rw [ih, ← Bool.and_assoc]
    rfl

theorem idxOf?_lastKeyFrom {f k : PublicKey} {tl : List Link} {i : Nat}
    (h : idxOf? k (f :: tl.map Link.key) = some i) :
    lastKeyFrom f (tl.take i) = k := by
  induction tl generalizing f i with
  | nil =>
    by_cases hfk : f = k
    · have h0 : i = 0 := by simp [idxOf?, hfk] at h; omega
      subst h0; simpa [lastKeyFrom] using hfk
    · simp [idxOf?, hfk] at h
  | cons l ls ih =>
    by_cases hfk : f = k
    · have h0 : i = 0 := by simp [idxOf?, hfk] at h; omega
      subst h0; simpa [lastKeyFrom] using hfk
    · have h' : (idxOf? k ((l :: ls).map Link.key)).map (· + 1) = some i := by
        have heq : idxOf? k (f :: (l :: ls).map Link.key) =
            if f == k then some 0 else (idxOf? k ((l :: ls).map Link.key)).map (· + 1) := rfl
        have hfk' : ¬ ((f == k) = true) := by simpa using hfk
        rw [heq, if_neg hfk'] at h
        exact h
      rw [List.map_cons] at h'
      cases hj : idxOf? k (l.key :: ls.map Link.key) with
      | none => rw [hj] at h'; simp at h'
      | some j =>
        rw [hj, Option.map_some'] at h'
        have hij : i = j + 1 := by
          have := Option.some.inj h'
          omega
        subst hij
        have := ih (f := l.key) (i := j) hj
        simpa [List.take, lastKeyFrom] using this

theorem linksIsPre_append {xs ys : List Link} (h : linksIsPre xs ys = true) :
    ys = xs ++ ys.drop xs.length := by
  induction xs generalizing ys with
  | nil => simp
  | cons a as ih =>
    cases ys with
    | nil => simp [linksIsPre] at h
    | cons b bs =>
      simp only [linksIsPre, Bool.and_eq_true, beq_iff_eq] at h
      obtain ⟨hab, hpre⟩ := h
      subst hab
      simpa [List.drop] using ih hpre

theorem spliceAux_cases {base ext : SectionProofChain} {i : Nat} {m : SectionProofChain}
    (hs : spliceAux base ext i = some m) :
    (linksIsPre (base.tail.drop i) ext.tail = true ∧
      m = SectionProofChain.mk base.first_key
        (base.tail ++ ext.tail.drop (base.tail.drop i).length)) ∨
    (linksIsPre ext.tail (base.tail.drop i) = true ∧ m = base) := by
  simp only [spliceAux] at hs
  by_cases h1 : linksIsPre (base.tail.drop i) ext.tail = true
  · rw [if_pos h1] at hs
    exact Or.inl ⟨h1, (Option.some.inj hs).symm⟩
  · rw [if_neg h1] at hs
    by_cases h2 : linksIsPre ext.tail (base.tail.drop i) = true
    · rw [if_pos h2] at hs
      exact Or.inr ⟨h2, (Option.some.inj hs).symm⟩
    · rw [if_neg h2] at hs
      exact Option.noConfusion hs

theorem spliceAux_keys {base ext : SectionProofChain} {i : Nat} {m : SectionProofChain}
    (hidx : idxOf? ext.first_key base.keys = some i)
    (hs : spliceAux base ext i = some m) :
    (∀ k, k ∈ base.keys → k ∈ m.keys) ∧ (∀ k, k ∈ ext.keys → k ∈ m.keys) := by
  have hmem : ext.first_key ∈ base.keys := idxOf?_mem hidx
  rcases spliceAux_cases hs with ⟨h1, hm⟩ | ⟨h2, hm⟩
  · subst hm
    constructor
    · intro k hk
      simp only [SectionProofChain.keys, List.map_append, List.mem_cons,
        List.mem_append] at hk ⊢
      rcases hk with hk | hk
      · exact Or.inl hk
      · exact Or.inr (Or.inl hk)
    · intro k hk
      have hx := linksIsPre_append h1
      simp only [SectionProofChain.keys, List.mem_cons] at hk
      rcases hk with hk | hk
      · subst hk
        simp only [SectionProofChain.keys, List.mem_cons, List.map_append,
          List.mem_append] at hmem ⊢
        rcases hmem with h | h
        · exact Or.inl h
        · exact Or.inr (Or.inl h)
      · rw [hx, List.map_append, List.mem_append] at hk
        simp only [SectionProofChain.keys, List.map_append, List.mem_cons, List.mem_append]
        rcases hk with hk | hk
        · obtain ⟨l, hl, hlk⟩ := List.mem_map.1 hk
          exact Or.inr (Or.inl (List.mem_map.2 ⟨l, List.drop_subset i base.tail hl, hlk⟩))
        · exact Or.inr (Or.inr hk)
  · rw [hm]
    refine ⟨fun k hk => hk, fun k hk => ?_⟩
    simp only [SectionProofChain.keys, List.mem_cons] at hk
    rcases hk with hk | hk
    · subst hk; exact hmem
    · have hx := linksIsPre_append h2
      obtain ⟨l, hl, hlk⟩ := List.mem_map.1 hk
      have hld : l ∈ base.tail.drop i := by
        rw [hx, List.mem_append]; exact Or.inl hl
      simp only [SectionProofChain.keys, List.mem_cons]
      exact Or.inr (List.mem_map.2 ⟨l, List.drop_subset i base.tail hld, hlk⟩)

theorem spliceAux_self_verify {base ext : SectionProofChain} {i : Nat}
    {m : SectionProofChain}
    (hidx : idxOf? ext.first_key base.keys = some i)
    (hb : base.self_verify = true) (he : ext.self_verify = true)
    (hs : spliceAux base ext i = some m) : m.self_verify = true := by
  rcases spliceAux_cases hs with ⟨h1, hm⟩ | ⟨h2, hm⟩
  · subst hm
    have hx := linksIsPre_append h1
    have hlast : lastKeyFrom base.first_key base.tail =
        lastKeyFrom ext.first_key (base.tail.drop i) := by
      conv_lhs => rw [← List.take_append_drop i base.tail]
      rw [lastKeyFrom_append]
      congr 1
      exact idxOf?_lastKeyFrom hidx
    have he' : verifyFrom ext.first_key
        (base.tail.drop i ++ ext.tail.drop (base.tail.drop i).length) = true := by
      rw [← hx]; exact he
    rw [verifyFrom_append, Bool.and_eq_true] at he'
    show verifyFrom base.first_key
      (base.tail ++ ext.tail.drop (base.tail.drop i).length) = true
    rw [verifyFrom_append, Bool.and_eq_true, hlast]
    exact ⟨hb, he'.2⟩
  · subst hm; exact hb

theorem chain_merge_ok_cases {a b m : SectionProofChain} (h : a.merge b = Except.ok m) :
    (∃ i, a.index_of b.first_key = some i ∧ spliceAux a b i = some m) ∨
    (∃ j, b.index_of a.first_key = some j ∧ spliceAux b a j = some m) := by
  unfold SectionProofChain.merge at h
  split at h
  · rename_i i heq
    split at h
    · rename_i m' heq2
      injection h with h
      subst h
      exact Or.inl ⟨i, heq, heq2⟩
    · exact Except.noConfusion h
  · rename_i heq
    split at h
    · rename_i j heq2
      split at h
      · rename_i m' heq3
        injection h with h
        subst h
        exact Or.inr ⟨j, heq2, heq3⟩
      · exact Except.noConfusion h
    · exact Except.noConfusion h

theorem chain_merge_keys {a b m : SectionProofChain}
    (h : a.merge b = Except.ok m) :
    (∀ k, k ∈ a.keys → k ∈ m.keys) ∧ (∀ k, k ∈ b.keys → k ∈ m.keys) := by
  rcases chain_merge_ok_cases h with ⟨i, hia, hs⟩ | ⟨j, hib, hs⟩
  · exact spliceAux_keys hia hs
  · exact ⟨(spliceAux_keys hib hs).2, (spliceAux_keys hib hs).1⟩

theorem chain_merge_self_verify {a b m : SectionProofChain}
    (h : a.merge b = Except.ok m)
    (ha : a.self_verify = true) (hb : b.self_verify = true) :
    m.self_verify = true := by
  rcases chain_merge_ok_cases h with ⟨i, hia, hs⟩ | ⟨j, hib, hs⟩
  · exact spliceAux_self_verify hia ha hb hs
  · exact spliceAux_self_verify hib hb ha hs

theorem push_self_verify {c : SectionProofChain} {k : PublicKey} {sig : Signature}
    (h : c.self_verify = true) : (c.push k sig).1.self_verify = true := by
  unfold SectionProofChain.push
  by_cases hv : verifySig c.last_key sig (Payload.key k) = true
  · rw [if_pos hv]
    show verifyFrom c.first_key (c.tail ++ [⟨sig, k⟩]) = true
    rw [verifyFrom_append, Bool.and_eq_true]
    exact ⟨h, by simpa [verifyFrom] using hv⟩
  · rw [if_neg hv]
    exact h

theorem push_keys {c : SectionProofChain} {k : PublicKey} {sig : Signature} {x : PublicKey}
    (h : x ∈ c.keys) : x ∈ (c.push k sig).1.keys := by
  unfold SectionProofChain.push
  by_cases hv : verifySig c.last_key sig (Payload.key k) = true
  · rw [if_pos hv]
    simp only [SectionProofChain.keys, List.map_append, List.mem_cons,
      List.mem_append] at h ⊢
    rcases h with h | h
    · exact Or.inl h
    · exact Or.inr (Or.inl h)
  · rw [if_neg hv]
    exact h

theorem has_key_iff {c : SectionProofChain} {k : PublicKey} :
    c.has_key k = true ↔ k ∈ c.keys := by
  simp [SectionProofChain.has_key]

/-- The `elders_info` selected by `Section::merge` from the two views, given
the merged chain (the `match` of section.rs:88-104). -/
def mergedEldersChoice (s other : Section) (nc : SectionProofChain) : Proven EldersInfo :=
  match cmp_section_chain_position s.elders_info other.elders_info nc with
  | some Ordering.lt => other.elders_info
  | some Ordering.eq =>
    if s.elders_info.value.elders.length < other.elders_info.value.elders.length
    then other.elders_info else s.elders_info
  | _ => s.elders_info

theorem section_merge_ok_full {s other s' : Section}
    (h : s.merge other = (Except.ok (), s')) :
    other.chain.self_verify = true ∧
    ∃ nc, s.chain.merge other.chain = Except.ok nc ∧
      s' = Section.mk
        ((s.members.merge other.members nc).remove_not_matching_our_pref
          (mergedEldersChoice s other nc).value.pref)
        (mergedEldersChoice s other nc) nc := by
  by_cases hsv : other.chain.self_verify = true
  · refine ⟨hsv, ?_⟩
    simp only [Section.merge] at h
    rw [if_neg (by simp [hsv])] at h
    split at h
    · rename_i e heq
      rw [Prod.mk.injEq] at h
      exact absurd h.1 (by simp)
    · rename_i nc heq
      rw [Prod.mk.injEq] at h
      exact ⟨nc, heq, h.2.symm⟩
  · have hsv' : other.chain.self_verify = false := by
      revert hsv; cases other.chain.self_verify <;> simp
    simp only [Section.merge] at h
    rw [if_pos (by simp [hsv'])] at h
    rw [Prod.mk.injEq] at h
    exact absurd h.1 (by simp)

theorem mergedEldersChoice_or (s other : Section) (nc : SectionProofChain) :
    mergedEldersChoice s other nc = s.elders_info ∨
    mergedEldersChoice s other nc = other.elders_info := by
  unfold mergedEldersChoice
  split
  · exact Or.inr rfl
  · split
    · exact Or.inr rfl
    · exact Or.inl rfl
  · exact Or.inl rfl

theorem inv_update_elders {s : Section} (n : Proven EldersInfo) (h : SectionInv s) :
    SectionInv (s.update_elders n).2 := by
  unfold Section.update_elders
  split
  · exact h
  · split
    · exact h
    · rename_i hv hne
      refine ⟨h.1, ?_⟩
      show s.chain.has_key n.proof.public_key = true
      have hvt : n.verify s.chain = true := by
        revert hv; cases n.verify s.chain <;> simp
      unfold Proven.verify at hvt
      exact ((Bool.and_eq_true _ _).mp hvt).1

theorem inv_update_chain {s : Section} (k : PublicKey) (sig : Signature)
    (h : SectionInv s) : SectionInv (s.update_chain k sig).2 :=
  ⟨push_self_verify h.1, has_key_iff.mpr (push_keys (has_key_iff.mp h.2))⟩

theorem inv_update_member {s : Section} (info : MemberInfo) (proof : Proof)
    (h : SectionInv s) : SectionInv (s.update_member info proof).2 := h

theorem inv_first_node (pk : PublicKey) (peer : Peer) :
    SectionInv (Section.first_node pk peer) := by
  constructor
  · rfl
  · exact has_key_iff.mpr (List.mem_cons_self _ _)

theorem inv_merge {s other s' : Section} (hs : SectionInv s) (ho : SectionInv other)
    (h : s.merge other = (Except.ok (), s')) : SectionInv s' := by
  obtain ⟨hsv, nc, hcm, rfl⟩ := section_merge_ok_full h
  constructor
  · exact chain_merge_self_verify hcm hs.1 hsv
  · show nc.has_key (mergedEldersChoice s other nc).proof.public_key = true
    rcases mergedEldersChoice_or s other nc with he | he
    · rw [he]
      exact has_key_iff.mpr ((chain_merge_keys hcm).1 _ (has_key_iff.mp hs.2))
    · rw [he]
      exact has_key_iff.mpr ((chain_merge_keys hcm).2 _ (has_key_iff.mp ho.2))

/-- An `EldersInfo` value with no elders under the empty prefix, used by
concrete instances. -/
def eiEmptyVal : EldersInfo := EldersInfo.mk [] (Prefix.mk 0 0)

/-- A properly signed `Proven EldersInfo` over `eiEmptyVal` with key 0. -/
def provenEmpty0 : Proven EldersInfo :=
  Proven.mk eiEmptyVal (Proof.mk 0 (signPayload 0 (Payload.elders eiEmptyVal)))

/-- A chain whose single link is signed by the wrong key (9 instead of 0):
it holds key 0 but does not self-verify. -/
def chainC1bad : SectionProofChain :=
  SectionProofChain.mk 0 [Link.mk (signPayload 9 (Payload.key 1)) 1]

/-- The section built by `Section::new` from the non-self-verifying chain. -/
def secC1bad : Section := Section.new chainC1bad provenEmpty0

/-- C1, counterexample: a state reachable via `Section::new` — whose assert
`chain.has_key(elders_info.proof.public_key)` passes — with a chain that does
not self-verify, so the claimed invariant fails already at construction. -/
theorem reachable_section_chain_not_self_verifying :
    Reachable secC1bad ∧ ¬ SectionInv secC1bad :=
  ⟨Reachable.new chainC1bad provenEmpty0 (by decide), by decide⟩

/-- C1 (amended): every state built by `Section::first_node`, or by
`Section::new` from a chain that also self-verifies, and closed under
`merge` (with another such state), `update_elders`, `update_chain` and
`update_member`, satisfies `chain.self_verify()` and
`chain.has_key(elders_info.proof.public_key)`; each operation preserves the
invariant. -/
theorem reachable_section_invariant (s : Section) (h : ReachableV s) : SectionInv s := by
  induction h with
  | new chain ei hsv hk => exact ⟨hsv, hk⟩
  | first_node pk peer => exact inv_first_node pk peer
  | update_elders n _ ih => exact inv_update_elders n ih
  | update_chain k sig _ ih => exact inv_update_chain k sig ih
  | update_member info proof _ ih => exact inv_update_member info proof ih
  | merge hs ho hm ihs iho => exact inv_merge ihs iho hm

/-- A one-key chain holding key 0. -/
def chainK0 : SectionProofChain := SectionProofChain.mk 0 []

/-- The section built by `Section::new` from the one-key chain. -/
def secC1good : Section := Section.new chainK0 provenEmpty0

/-- C1 witness: the amended reachability hypothesis is satisfiable and the
invariant holds at the witness state. -/
theorem reachable_section_invariant_witness :
    ReachableV secC1good ∧ SectionInv secC1good :=
  ⟨ReachableV.new chainK0 provenEmpty0 (by decide) (by decide),
   reachable_section_invariant secC1good
     (ReachableV.new chainK0 provenEmpty0 (by decide) (by decide))⟩

/-- The current elders info of the C2 instances: empty elder set under the
one-bit prefix "0". -/
def eiC2cur : EldersInfo := EldersInfo.mk [] (Prefix.mk 1 0)

/-- The current proven elders info of the C2 instances, signed with key 0. -/
def provenC2cur : Proven EldersInfo :=
  Proven.mk eiC2cur (Proof.mk 0 (signPayload 0 (Payload.elders eiC2cur)))

/-- A section with prefix "0" and chain [K0]. -/
def secC2 : Section := Section.new chainK0 provenC2cur

/-- A properly signed elders info under the sibling prefix "1" — not an
extension of the current prefix "0". -/
def provenC2new : Proven EldersInfo :=
  Proven.mk (EldersInfo.mk [] (Prefix.mk 1 (2 ^ 255)))
    (Proof.mk 0 (signPayload 0 (Payload.elders (EldersInfo.mk [] (Prefix.mk 1 (2 ^ 255))))))

/-- C2, counterexample: `update_elders` accepts a proven elders info whose
prefix is neither equal to nor an extension of the current prefix — the
source performs no prefix check, against the claim's second condition. -/
theorem update_elders_accepts_foreign_pref :
    (secC2.update_elders provenC2new).1 = true ∧
    Prefix.is_extension_of provenC2new.value.pref secC2.pref = false := by
  constructor
  · decide
  · decide

/-- C2 (amended): `update_elders(new)` returns true iff the proof's key is in
the chain, the signature verifies, and the value differs from the current
`elders_info` (Rust `!=`); no prefix compatibility is required.  On acceptance
it replaces `elders_info` and prunes members by the new prefix; when it
returns false the section is unchanged. -/
theorem update_elders_characterisation (s : Section) (n : Proven EldersInfo) :
    ((s.update_elders n).1 = true ↔
      (s.chain.has_key n.proof.public_key = true ∧ n.self_verify = true ∧
        provenEldersEqv n s.elders_info = false)) ∧
    ((s.update_elders n).1 = true →
      (s.update_elders n).2 =
        Section.mk (s.members.remove_not_matching_our_pref n.value.pref) n s.chain) ∧
    ((s.update_elders n).1 = false → (s.update_elders n).2 = s) := by
  unfold Section.update_elders
  by_cases hv : n.verify s.chain = true
  · have hv' := hv
    unfold Proven.verify at hv'
    obtain ⟨h1, h2⟩ := (Bool.and_eq_true _ _).mp hv'
    rw [if_neg (by simp [hv])]
    by_cases he : provenEldersEqv n s.elders_info = true
    · rw [if_pos he]
      exact ⟨by simp [he], by simp, fun _ => rfl⟩
    · rw [if_neg he]
      refine ⟨⟨fun _ => ⟨h1, h2, ?_⟩, fun _ => rfl⟩, fun _ => rfl, fun hc => ?_⟩
      · revert he; cases provenEldersEqv n s.elders_info <;> simp
      · exact absurd hc (by simp)
  · have hvf : n.verify s.chain = false := by
      revert hv; cases n.verify s.chain <;> simp
    rw [if_pos (by simp [hvf])]
    refine ⟨⟨fun hc => absurd hc (by simp), ?_⟩, fun hc => absurd hc (by simp), fun _ => rfl⟩
    rintro ⟨h1, h2, -⟩
    exfalso
    apply hv
    simp [Proven.verify, h1, h2]

/-- A properly signed elders info under the current prefix "0" with one
elder, differing from `provenC2cur`. -/
def provenC2good : Proven EldersInfo :=
  Proven.mk (EldersInfo.mk [(0, Peer.mk 0 0 4)] (Prefix.mk 1 0))
    (Proof.mk 0
      (signPayload 0 (Payload.elders (EldersInfo.mk [(0, Peer.mk 0 0 4)] (Prefix.mk 1 0)))))

/-- C2 witness: the three amended conditions are satisfiable and force
acceptance. -/
theorem update_elders_characterisation_witness :
    (secC2.update_elders provenC2good).1 = true :=
  (update_elders_characterisation secC2 provenC2good).1.mpr (by decide)

/-- C3: `Section::merge` fails with `InvalidMessage` when the other view's
chain does not self-verify, and with `UntrustedMessage` when (the other chain
self-verifies but) the two chains share no key; in both cases the section is
returned unchanged — the source's early returns precede every mutation. -/
theorem merge_error_cases (s other : Section) :
    (other.chain.self_verify = false →
      s.merge other = (Except.error Error.InvalidMessage, s)) ∧
    (other.chain.self_verify = true →
      (∀ k, k ∈ s.chain.keys → k ∉ other.chain.keys) →
      s.merge other = (Except.error Error.UntrustedMessage, s)) := by
  constructor
  · intro hsv
    simp only [Section.merge]
    rw [if_pos (by simp [hsv])]
  · intro hsv hdisj
    have h1 : s.chain.index_of other.chain.first_key = none := by
      apply idxOf?_eq_none
      intro hmem
      exact hdisj _ hmem (List.mem_cons_self _ _)
    have h2 : other.chain.index_of s.chain.first_key = none := by
      apply idxOf?_eq_none
      exact hdisj _ (List.mem_cons_self _ _)
    have hcm : s.chain.merge other.chain = Except.error ChainError.InvalidChainExtension := by
      unfold SectionProofChain.merge
      rw [h1, h2]
    simp only [Section.merge]
    rw [if_neg (by simp [hsv]), hcm]

/-- A self-verifying one-key chain holding only key 5, sharing no key with
`chainK0`. -/
def chainK5 : SectionProofChain := SectionProofChain.mk 5 []

/-- A view whose chain fails to self-verify. -/
def otherC3bad : Section := Section.new chainC1bad provenEmpty0

/-- A view whose (self-verifying) chain is disjoint from `chainK0`. -/
def otherC3disj : Section :=
  Section.new chainK5
    (Proven.mk eiEmptyVal (Proof.mk 5 (signPayload 5 (Payload.elders eiEmptyVal))))

/-- C3 witness: both failure modes at concrete views. -/
theorem merge_error_cases_witness :
    secC1good.merge otherC3bad = (Except.error Error.InvalidMessage, secC1good) ∧
    secC1good.merge otherC3disj = (Except.error Error.UntrustedMessage, secC1good) :=
  ⟨(merge_error_cases secC1good otherC3bad).1 (by decide),
   (merge_error_cases secC1good otherC3disj).2 (by decide) (by decide)⟩

instance exceptDecEq {ε α : Type} [DecidableEq ε] [DecidableEq α] :
    DecidableEq (Except ε α) := fun x y =>
  match x, y with
  | Except.ok a, Except.ok b =>
    if h : a = b then isTrue (by rw [h])
    else isFalse (fun hh => by cases hh; exact h rfl)
  | Except.error e, Except.error f =>
    if h : e = f then isTrue (by rw [h])
    else isFalse (fun hh => by cases hh; exact h rfl)
  | Except.ok _, Except.error _ => isFalse (fun hh => Except.noConfusion hh)
  | Except.error _, Except.ok _ => isFalse (fun hh => Except.noConfusion hh)

/-- C4 (amended): in a successful `Section::merge` in which both views'
`elders_info` self-verify and both proofs' keys occur in the merged chain at
indices `i` (ours) and `j` (theirs), the other view's `elders_info` is adopted
exactly when `j` is strictly greater, or the indices are equal and the other
view has strictly more elders; otherwise ours is kept. -/
theorem merge_elders_decision (s other s' : Section) (i j : Nat)
    (hm : s.merge other = (Except.ok (), s'))
    (hvs : s.elders_info.self_verify = true)
    (hvo : other.elders_info.self_verify = true)
    (hi : s'.chain.index_of s.elders_info.proof.public_key = some i)
    (hj : s'.chain.index_of other.elders_info.proof.public_key = some j) :
    s'.elders_info =
      if i < j ∨ (i = j ∧ s.elders_info.value.elders.length <
          other.elders_info.value.elders.length)
      then other.elders_info else s.elders_info := by
  obtain ⟨hsv, nc, hcm, rfl⟩ := section_merge_ok_full hm
  have hi' : nc.index_of s.elders_info.proof.public_key = some i := hi
  have hj' : nc.index_of other.elders_info.proof.public_key = some j := hj
  have hcmp : cmp_section_chain_position s.elders_info other.elders_info nc =
      some (compare i j) := by
    unfold cmp_section_chain_position
    simp only [hvs, hvo, hi', hj']
  show mergedEldersChoice s other nc = _
  unfold mergedEldersChoice
  rw [hcmp]
  rcases Nat.lt_trichotomy i j with hlt | heq | hgt
  · rw [Nat.compare_eq_lt.mpr hlt]
    show other.elders_info = _
    rw [if_pos (Or.inl hlt)]
  · rw [Nat.compare_eq_eq.mpr heq]
    subst heq
    show (if s.elders_info.value.elders.length < other.elders_info.value.elders.length
        then other.elders_info else s.elders_info) = _
    by_cases hlen : s.elders_info.value.elders.length <
        other.elders_info.value.elders.length
    · rw [if_pos hlen, if_pos (Or.inr ⟨rfl, hlen⟩)]
    · rw [if_neg hlen, if_neg (by simp [hlen])]
  · rw [Nat.compare_eq_gt.mpr hgt]
    show s.elders_info = _
    rw [if_neg (by rintro (hc | ⟨hc, -⟩) <;> omega)]

/-- A self-verifying two-key chain [K0, K1]. -/
def chainC4 : SectionProofChain :=
  SectionProofChain.mk 0 [Link.mk (signPayload 0 (Payload.key 1)) 1]

/-- An elders info with one elder, used as the other view's newer value. -/
def eiC4other : EldersInfo := EldersInfo.mk [(1, Peer.mk 1 0 4)] (Prefix.mk 0 0)

/-- Our view on chain [K0, K1]: elders info properly signed with K0
(index 0). -/
def secC4a : Section := Section.new chainC4 provenEmpty0

/-- The other view on the same chain: elders info claiming K1 (index 1) but
with a signature that does not verify. -/
def secC4b : Section :=
  Section.new chainC4
    (Proven.mk eiC4other (Proof.mk 1 (signPayload 9 (Payload.elders eiC4other))))

/-- C4, counterexample: a successful merge in which the other view's proof key
sits strictly later in the merged chain (index 1 versus 0), yet our
`elders_info` is kept, because the other view's proof does not self-verify —
the index comparison alone does not decide the outcome. -/
theorem merge_keep_decision_needs_self_verify :
    (secC4a.merge secC4b).1 = Except.ok () ∧
    (secC4a.merge secC4b).2.chain.index_of secC4a.elders_info.proof.public_key = some 0 ∧
    (secC4a.merge secC4b).2.chain.index_of secC4b.elders_info.proof.public_key = some 1 ∧
    (secC4a.merge secC4b).2.elders_info = secC4a.elders_info ∧
    secC4a.elders_info ≠ secC4b.elders_info := by
  refine ⟨by decide, by decide, by decide, by decide, by decide⟩

/-- The other view with a properly signed newer elders info (K1, index 1). -/
def secC4c : Section :=
  Section.new chainC4
    (Proven.mk eiC4other (Proof.mk 1 (signPayload 1 (Payload.elders eiC4other))))

/-- C4 witness: with both proofs self-verifying and keys at indices 0 and 1,
the merge adopts the other view's elders info. -/
theorem merge_elders_decision_witness :
    (secC4a.merge secC4c).2.elders_info = secC4c.elders_info := by
  have h := merge_elders_decision secC4a secC4c (secC4a.merge secC4c).2 0 1
    (by decide) (by decide) (by decide) (by decide) (by decide)
  simpa using h

/-- C5: when `try_split` yields no split and the expected elder-candidate set
differs from the current elder set but has fewer than
`majority_count(current)` members, `promote_and_demote_elders` returns the
empty list (and, taking the section by shared reference, leaves the roster
unchanged). -/
theorem promote_and_demote_refuses_shrink (s : Section) (params : NetworkParams)
    (our_name : XorName)
    (hsplit : s.try_split params our_name = none)
    (hne : nameSet (s.elder_candidates params.elder_size) ≠
      nameSet s.elders_info.value.elders)
    (hlt : (nameSet (s.elder_candidates params.elder_size)).length <
      majority_count (nameSet s.elders_info.value.elders).length) :
    s.promote_and_demote_elders params our_name = [] := by
  unfold Section.promote_and_demote_elders
  rw [hsplit]
  show (if nameSet (s.elder_candidates params.elder_size) =
        nameSet s.elders_info.value.elders then ([] : List EldersInfo)
      else if (nameSet (s.elder_candidates params.elder_size)).length <
          majority_count (nameSet s.elders_info.value.elders).length then []
      else [EldersInfo.new (s.elder_candidates params.elder_size) s.pref]) = []
  rw [if_neg hne, if_pos hlt]

/-- The typical network parameters {elder_size 7, recommended_section_size 10}. -/
def paramsW5 : NetworkParams := NetworkParams.mk 7 10

/-- A joined adult member entry for the C5 witness. -/
def memberEntry (name : XorName) : XorName × Proven MemberInfo :=
  (name,
    Proven.mk (MemberInfo.joined (Peer.mk name 0 5))
      (Proof.mk 0 (signPayload 0 (Payload.member (MemberInfo.joined (Peer.mk name 0 5))))))

/-- Current elders {10, 11, 12, 13, 14} under the empty prefix. -/
def eiW5 : EldersInfo :=
  EldersInfo.mk
    [(10, Peer.mk 10 0 5), (11, Peer.mk 11 0 5), (12, Peer.mk 12 0 5),
      (13, Peer.mk 13 0 5), (14, Peer.mk 14 0 5)] (Prefix.mk 0 0)

/-- A section with five current elders but only two joined adult members. -/
def secW5 : Section :=
  Section.mk (SectionPeers.mk [memberEntry 1, memberEntry 2])
    (Proven.mk eiW5 (Proof.mk 0 (signPayload 0 (Payload.elders eiW5)))) chainK0

/-- C5 witness: five current elders, candidate set of two —
`majority_count 5 = 3 > 2` — so the proposal list is empty. -/
theorem promote_and_demote_refuses_shrink_witness :
    secW5.promote_and_demote_elders paramsW5 0 = [] :=
  promote_and_demote_refuses_shrink secW5 paramsW5 0 (by decide) (by decide) (by decide)

theorem count_fold (l : List Bool) (a b : Nat) :
    l.foldl (fun acc x => if x then (acc.1 + 1, acc.2) else (acc.1, acc.2 + 1)) (a, b) =
    (a + l.countP id, b + l.countP (fun x => !x)) := by
  induction l generalizing a b with
  | nil => simp
  | cons x xs ih =>
    cases x
    · simp only [List.foldl_cons, if_neg, Bool.false_eq_true, if_false, ih,
        List.countP_cons, Prod.mk.injEq]
      constructor <;> simp [id] <;> omega
    · simp only [List.foldl_cons, if_pos, ih, List.countP_cons, Prod.mk.injEq]
      constructor <;> simp [id] <;> omega

theorem truncTop_idem (n : XorName) (k : Nat) : truncTop (truncTop n k) k = truncTop n k := by
  unfold truncTop
  rw [Nat.mul_div_cancel _ (Nat.two_pow_pos _)]

theorem truncTop_add_lt (n : XorName) (k r : Nat) (h : r < 2 ^ (NAME_BITS - k)) :
    truncTop (truncTop n k + r) k = truncTop n k := by
  have hw : 0 < 2 ^ (NAME_BITS - k) := Nat.two_pow_pos _
  have hdiv : (n / 2 ^ (NAME_BITS - k) * 2 ^ (NAME_BITS - k) + r) / 2 ^ (NAME_BITS - k) =
      n / 2 ^ (NAME_BITS - k) := by
    rw [Nat.mul_comm, Nat.mul_add_div hw, Nat.div_eq_of_lt h, Nat.add_zero]
  unfold truncTop
  rw [hdiv]

theorem testBit_step (q e : Nat) (b : Bool) :
    (q * 2 ^ (e + 1) + (if b then 2 ^ e else 0)).testBit e = b := by
  have hw : 0 < 2 ^ e := Nat.two_pow_pos e
  rw [Nat.testBit_to_div_mod]
  have h2 : q * 2 ^ (e + 1) = 2 ^ e * (2 * q) := by ring
  have hdiv : (q * 2 ^ (e + 1) + (if b then 2 ^ e else 0)) / 2 ^ e =
      2 * q + (if b then 1 else 0) := by
    cases b
    · simp only [if_neg, Bool.false_eq_true, if_false, Nat.add_zero, h2]
      rw [Nat.mul_div_cancel_left _ hw]
    · simp only [if_pos, h2]
      rw [Nat.mul_add_div hw, Nat.div_self hw]
  rw [hdiv]
  cases b <;> simp <;> omega

theorem pushed_sibling (p : Prefix) (b : Bool) (h : p.bit_count < NAME_BITS) :
    (p.pushed b).sibling = p.pushed (!b) := by
  have hNB : NAME_BITS - p.bit_count = (NAME_BITS - 1 - p.bit_count) + 1 := by omega
  have ht : truncTop p.name p.bit_count =
      p.name / 2 ^ ((NAME_BITS - 1 - p.bit_count) + 1) *
        2 ^ ((NAME_BITS - 1 - p.bit_count) + 1) := by
    unfold truncTop; rw [hNB]
  unfold Prefix.pushed
  rw [if_pos h, if_pos h]
  unfold Prefix.sibling
  simp only
  rw [if_neg (by omega : ¬ p.bit_count + 1 = 0)]
  unfold flipBit
  simp only [Nat.add_sub_cancel]
  rw [if_pos h, ht]
  rw [testBit_step]
  cases b
  · simp
  · simp

theorem pushed_popped_eqv (p : Prefix) (b : Bool) (h : p.bit_count < NAME_BITS) :
    ((p.pushed b).popped).eqv p = true := by
  have hNB : NAME_BITS - p.bit_count = (NAME_BITS - 1 - p.bit_count) + 1 := by omega
  have hw : 0 < 2 ^ ((NAME_BITS - 1 - p.bit_count) + 1) := Nat.two_pow_pos _
  have hblt : (if b then 2 ^ (NAME_BITS - 1 - p.bit_count) else 0) <
      2 ^ ((NAME_BITS - 1 - p.bit_count) + 1) := by
    have := Nat.two_pow_pos (NAME_BITS - 1 - p.bit_count)
    have h2 : (2:Nat) ^ ((NAME_BITS - 1 - p.bit_count) + 1) =
        2 ^ (NAME_BITS - 1 - p.bit_count) * 2 := by ring
    cases b <;> simp <;> omega
  have htr : truncTop (truncTop p.name p.bit_count +
      (if b then 2 ^ (NAME_BITS - 1 - p.bit_count) else 0)) p.bit_count =
      truncTop p.name p.bit_count := by
    apply truncTop_add_lt
    rw [hNB]
    exact hblt
  unfold Prefix.pushed
  rw [if_pos h]
  unfold Prefix.popped
  simp only
  rw [if_neg (by omega : ¬ p.bit_count + 1 = 0)]
  simp only [Nat.add_sub_cancel]
  rw [Nat.min_eq_left (Nat.le_of_lt h)]
  unfold Prefix.eqv
  simp only
  rw [Nat.min_eq_left (Nat.le_of_lt h), htr, truncTop_idem]
  simp

/-- C6: for sections whose prefix is below the name length (so the partition
bit exists; at full length `try_split` always returns `None` via the `u8`
conversion guard), `try_split` returns `Some` iff, partitioning the adults by
their bit at depth `bit_count` (our side = the side of `our_name`'s bit), both
sides have at least `recommended_section_size` adults; and any returned pair
carries the two one-bit extensions of the current prefix — ours first, the
two siblings of each other, their parent the current prefix. -/
theorem try_split_characterisation (s : Section) (params : NetworkParams)
    (our_name : XorName) (hbc : s.pref.bit_count < NAME_BITS) :
    ((s.try_split params our_name).isSome = true ↔
      (params.recommended_section_size ≤ s.members.adults.countP
          (fun p => nameBit p.name s.pref.bit_count == nameBit our_name s.pref.bit_count) ∧
       params.recommended_section_size ≤ s.members.adults.countP
          (fun p => !(nameBit p.name s.pref.bit_count == nameBit our_name s.pref.bit_count)))) ∧
    (∀ a b, s.try_split params our_name = some (a, b) →
      a.pref = s.pref.pushed (nameBit our_name s.pref.bit_count) ∧
      b.pref = s.pref.pushed (!(nameBit our_name s.pref.bit_count)) ∧
      a.pref.sibling = b.pref ∧
      (a.pref.popped).eqv s.pref = true) := by
  have hguard : ¬ NAME_BITS ≤ s.pref.bit_count := by omega
  have hcomp1 : s.members.adults.countP
      (id ∘ fun p => nameBit p.name s.pref.bit_count == nameBit our_name s.pref.bit_count) =
      s.members.adults.countP
      (fun p => nameBit p.name s.pref.bit_count == nameBit our_name s.pref.bit_count) :=
    List.countP_congr (fun a _ => by simp)
  have hcomp2 : s.members.adults.countP
      ((fun x => !x) ∘
        fun p => nameBit p.name s.pref.bit_count == nameBit our_name s.pref.bit_count) =
      s.members.adults.countP
      (fun p => !(nameBit p.name s.pref.bit_count == nameBit our_name s.pref.bit_count)) :=
    List.countP_congr (fun a _ => by simp)
  constructor
  · simp only [Section.try_split]
    rw [if_neg hguard]
    simp only [count_fold, Nat.zero_add, List.countP_map, hcomp1, hcomp2]
    by_cases hc : s.members.adults.countP
        (fun p => nameBit p.name s.pref.bit_count == nameBit our_name s.pref.bit_count) <
          params.recommended_section_size ∨
        s.members.adults.countP
        (fun p => !(nameBit p.name s.pref.bit_count == nameBit our_name s.pref.bit_count)) <
          params.recommended_section_size
    · rw [if_pos hc]
      simp only [Option.isSome_none, Bool.false_eq_true, false_iff]
      omega
    · rw [if_neg hc]
      simp only [Option.isSome_some, true_iff]
      omega
  · intro a b hsome
    simp only [Section.try_split] at hsome
    rw [if_neg hguard] at hsome
    simp only [count_fold, Nat.zero_add, List.countP_map, hcomp1, hcomp2] at hsome
    by_cases hc : s.members.adults.countP
        (fun p => nameBit p.name s.pref.bit_count == nameBit our_name s.pref.bit_count) <
          params.recommended_section_size ∨
        s.members.adults.countP
        (fun p => !(nameBit p.name s.pref.bit_count == nameBit our_name s.pref.bit_count)) <
          params.recommended_section_size
    · rw [if_pos hc] at hsome
      exact Option.noConfusion hsome
    · rw [if_neg hc] at hsome
      have hpair := Option.some.inj hsome
      rw [Prod.mk.injEq] at hpair
      obtain ⟨ha, hb⟩ := hpair
      subst ha
      subst hb
      exact ⟨rfl, rfl, pushed_sibling s.pref _ hbc, pushed_popped_eqv s.pref _ hbc⟩

/-- Parameters for the C6 witness: elder_size 3, recommended_section_size 2. -/
def paramsW6 : NetworkParams := NetworkParams.mk 3 2

/-- A section under the empty prefix with four joined adults, two on each
side of the first bit. -/
def secW6 : Section :=
  Section.mk
    (SectionPeers.mk
      [memberEntry 1, memberEntry 2, memberEntry (2 ^ 255 + 1), memberEntry (2 ^ 255 + 2)])
    provenEmpty0 chainK0

/-- C6 witness: two adults on each side of the partition reach the
recommended size 2, so the split is produced. -/
theorem try_split_characterisation_witness :
    secW6.pref.bit_count < NAME_BITS ∧ (secW6.try_split paramsW6 0).isSome = true :=
  ⟨by decide,
   (try_split_characterisation secW6 paramsW6 0 (by decide)).1.mpr (by decide)⟩

theorem matches_withinRange (K : Nat) (d : XorName) (r : Nat) :
    (Prefix.new K d).matches (withinRange r ((Prefix.new K d).range_inclusive)) = true := by
  have hkle : min K NAME_BITS ≤ NAME_BITS := Nat.min_le_right _ _
  have hmm : min (min K NAME_BITS) NAME_BITS = min K NAME_BITS := Nat.min_eq_left hkle
  have hw : 0 < 2 ^ (NAME_BITS - min K NAME_BITS) := Nat.two_pow_pos _
  simp only [Prefix.new, Prefix.matches, Prefix.range_inclusive, withinRange, hmm,
    truncTop_idem]
  have harith : ∀ t w : Nat, 0 < w → t + (w - 1) + 1 - t = w := by
    intro t w hw0
    omega
  rw [harith _ _ hw]
  rw [truncTop_add_lt _ _ _ (Nat.mod_lt _ hw)]
  simp

/-- C7: when the bootstrapping node carries relocate details, the identity
generated on a `BootstrapResponse::Join{elders_info, ..}` lies, for every RNG
outcome `r`, within
`Prefix::new(elders_info.prefix.bit_count + EXTRA_SPLIT_COUNT,
relocate.destination).range_inclusive()`, i.e. its top
`bit_count + 3` bits equal the destination's. -/
theorem join_section_new_name_in_target_range (st : Bootstrapping) (ei : EldersInfo)
    (r : Nat) (d : SignedRelocateDetails) (h : st.relocate_details = some d) :
    (Prefix.new (ei.pref.bit_count + EXTRA_SPLIT_COUNT) d.destination).matches
      (st.join_section ei r).2.name = true := by
  unfold Bootstrapping.join_section
  rw [h]
  exact matches_withinRange _ _ _

/-- The relocate details of scenario S5: destination 0xC0…00 (top byte
11000000). -/
def detailsW7 : SignedRelocateDetails := SignedRelocateDetails.mk (0xC0 * 2 ^ 248)

/-- A bootstrapping stage carrying the S5 relocate details. -/
def stageW7 : Bootstrapping := Bootstrapping.mk (some detailsW7) 7

/-- The elders info of scenario S5: prefix "11" (bit_count 2). -/
def eiW7 : EldersInfo := EldersInfo.mk [] (Prefix.mk 2 (3 * 2 ^ 254))

/-- C7 witness (scenario S5): with prefix bit_count 2 and destination 0xC0…,
the generated name's top 5 bits are 11000. -/
theorem join_section_new_name_in_target_range_witness :
    stageW7.relocate_details = some detailsW7 ∧
    (Prefix.new (eiW7.pref.bit_count + EXTRA_SPLIT_COUNT) detailsW7.destination).matches
      (stageW7.join_section eiW7 5).2.name = true :=
  ⟨rfl, join_section_new_name_in_target_range stageW7 eiW7 5 detailsW7 rfl⟩

/-- The elders info sent by an (unsolicited) bootstrap responder. -/
def eiC8 : EldersInfo := EldersInfo.mk [(3, Peer.mk 3 0 4)] (Prefix.mk 0 0)

/-- A non-relocating bootstrapping stage that never sent a request to
anybody. -/
def stageC8 : Bootstrapping := Bootstrapping.mk none 42

/-- C8, evidence for the divergence: the source's pending-requests filter is
commented out, so a `BootstrapResponse::Join` from any sender — here sender
999, to which no `BootstrapRequest` was ever sent — produces `JoinParams`
(the transition to `Joining`), and the outcome does not depend on the sender
at all. -/
theorem bootstrap_response_processed_without_pending_check :
    ((stageC8.handle_bootstrap_response 999 (BootstrapResponseM.join eiC8 7) 0).1).isSome =
      true ∧
    stageC8.handle_bootstrap_response 999 (BootstrapResponseM.join eiC8 7) 0 =
      stageC8.handle_bootstrap_response 111 (BootstrapResponseM.join eiC8 7) 0 := by
  exact ⟨rfl, rfl⟩

/-- C9: `MemberKnowledge::update` is element-wise monotone — each field of the
result is the max of the old field and the argument's; hence no field ever
decreases, updating with oneself or repeating an argument is idempotent, and
updates commute. -/
theorem member_knowledge_update_monotone (a b c : MemberKnowledge) :
    (a.update b).elders_version = max a.elders_version b.elders_version ∧
    (a.update b).parsec_version = max a.parsec_version b.parsec_version ∧
    a.elders_version ≤ (a.update b).elders_version ∧
    a.parsec_version ≤ (a.update b).parsec_version ∧
    a.update a = a ∧
    (a.update b).update b = a.update b ∧
    (a.update b).update c = (a.update c).update b := by
  refine ⟨rfl, rfl, Nat.le_max_left _ _, Nat.le_max_left _ _, ?_, ?_, ?_⟩
  · simp [MemberKnowledge.update]
  · simp [MemberKnowledge.update, Nat.max_assoc]
  · simp only [MemberKnowledge.update, MemberKnowledge.mk.injEq]
    constructor
    · rw [Nat.max_assoc, Nat.max_assoc, Nat.max_comm b.elders_version c.elders_version]
    · rw [Nat.max_assoc, Nat.max_assoc, Nat.max_comm b.parsec_version c.parsec_version]

/-- C10: `Section::member_age(name)` returns the stored peer's age when the
name is present among the members and `MIN_AGE` when absent; it is a pure
function of the section (the source takes `&self`), so it cannot fail or
mutate. -/
theorem member_age_spec (s : Section) (name : XorName) :
    (∀ info, s.members.get name = some info → s.member_age name = info.peer.age) ∧
    (s.members.get name = none → s.member_age name = MIN_AGE) := by
  constructor
  · intro info h
    unfold Section.member_age
    rw [h]
  · intro h
    unfold Section.member_age
    rw [h]

/-- A section holding exactly one member, name 5 with age 7. -/
def secW10 : Section :=
  Section.mk
    (SectionPeers.mk
      [(5,
        Proven.mk (MemberInfo.joined (Peer.mk 5 0 7))
          (Proof.mk 0 (signPayload 0 (Payload.member (MemberInfo.joined (Peer.mk 5 0 7))))))])
    provenEmpty0 chainK0

/-- C10 witness: the present name 5 yields its stored age 7, the absent name
6 yields `MIN_AGE`. -/
theorem member_age_spec_witness :
    secW10.member_age 5 = 7 ∧ secW10.member_age 6 = MIN_AGE :=
  ⟨(member_age_spec secW10 5).1 (MemberInfo.joined (Peer.mk 5 0 7)) (by decide),
   (member_age_spec secW10 6).2 (by decide)⟩
